import Mathlib

/-!
# Host adaptation layer of the code generator (`src/libponyc/codegen/host.cc`)

A shallow embedding of the functions of `host.cc` and the properties of
them that the design document states.

* C strings are modelled by the characters that precede their terminator.
* The heap buffer of `LLVMGetHostCPUFeatures` is modelled by its allocated
  size, the C string it holds and the number of its leading bytes that have
  been written (terminator included).
* Calls into the LLVM library are modelled by the arguments they receive.
-/

namespace Host

/-! ## C strings and the output buffer -/

/-- The terminator of a C string. -/
def NUL : Char := Char.ofNat 0

/-- A C string, as `c_str()` hands it to `strcat`: the characters before the
terminator, none of which is the terminator itself. -/
structure CStr where
  chars : List Char
  nonul : ∀ c ∈ chars, c ≠ NUL

/-- Number of characters before the terminator (`length()` / `strlen`). -/
def CStr.length (s : CStr) : Nat := s.chars.length

/-- The literal `"+"`. -/
def lit_plus : CStr := ⟨['+'], by decide⟩

/-- The literal `"-"`. -/
def lit_minus : CStr := ⟨['-'], by decide⟩

/-- The literal `","`. -/
def lit_comma : CStr := ⟨[','], by decide⟩

/-- The literal `",-avx512f"`. -/
def lit_avx512f : CStr := ⟨[',', '-', 'a', 'v', 'x', '5', '1', '2', 'f'], by decide⟩

/-- The literal `",-neon"`. -/
def lit_neon : CStr := ⟨[',', '-', 'n', 'e', 'o', 'n'], by decide⟩

/-- A heap buffer holding a C string.
`size` is the argument of `malloc`, `str` the characters before the
terminator, `written` the number of leading bytes of the allocation that
have been stored to so far (one past the highest index written). -/
structure Buf where
  size : Nat
  str : List Char
  written : Nat
deriving DecidableEq, Repr

/-- The call `malloc(buf_size)`: nothing written yet. -/
def malloc (buf_size : Nat) : Buf := ⟨buf_size, [], 0⟩

/-- The store `buf[0] = 0`: the buffer holds the empty string, byte 0 is written. -/
def Buf.setTerminator (b : Buf) : Buf := ⟨b.size, [], max b.written 1⟩

/-- The call `strcat(buf, src)`: the characters of `src` and a terminator are
stored from index `strlen(buf)` on. -/
def strcat (b : Buf) (src : CStr) : Buf :=
  ⟨b.size, b.str ++ src.chars, max b.written (b.str.length + src.length + 1)⟩

/-- True when a store went past the end of the allocation. -/
def Buf.overflow (b : Buf) : Bool := decide (b.size < b.written)

/-! ## Host CPU features -/

/-- One entry of the `StringMap<bool>` of host features: key and value. -/
structure Feature where
  getKey : CStr
  getValue : Bool

/-- The preprocessor configuration the file is compiled under. -/
structure Config where
  PONY_LLVM : Nat
  PLATFORM_IS_X86 : Bool
  PLATFORM_IS_ARMHF_WITHOUT_NEON : Bool
deriving DecidableEq, Repr

/-- The guard `PONY_LLVM < 500 and defined(PLATFORM_IS_X86)`. -/
def Config.avx512Workaround (cfg : Config) : Bool :=
  decide (cfg.PONY_LLVM < 500) && cfg.PLATFORM_IS_X86

/-- The first loop of `LLVMGetHostCPUFeatures`:
`buf_size += key.length() + 2` over the entries, starting from `acc`.
The `size_t` sum is taken in the naturals: the keys are held in memory, so
their lengths cannot add up to a wrap. -/
def sizeLoop : Nat → List Feature → Nat
  | acc, [] => acc
  | acc, f :: rest => sizeLoop (acc + (f.getKey.length + 2)) rest

/-- The second loop of `LLVMGetHostCPUFeatures`: sign, key, and a comma when
the iterator has not reached the end after the increment. -/
def formatLoop : Buf → List Feature → Buf
  | buf, [] => buf
  | buf, f :: rest =>
    let buf := if f.getValue then strcat buf lit_plus else strcat buf lit_minus
    let buf := strcat buf f.getKey
    let buf := if rest.isEmpty then buf else strcat buf lit_comma
    formatLoop buf rest

/-- The body of `LLVMGetHostCPUFeatures` from the size computation on
(lines 70-112), for the entries `features` of the map in iteration order.
The result is the buffer the function returns. -/
def LLVMGetHostCPUFeatures (cfg : Config) (features : List Feature) : Buf :=
  let buf_size := sizeLoop 0 features
  let buf_size := if cfg.avx512Workaround then buf_size + 9 else buf_size
  let buf_size := if cfg.PLATFORM_IS_ARMHF_WITHOUT_NEON then buf_size + 6 else buf_size
  let buf := malloc buf_size
  let buf := buf.setTerminator
  let buf := formatLoop buf features
  let buf := if cfg.avx512Workaround then strcat buf lit_avx512f else buf
  let buf := if cfg.PLATFORM_IS_ARMHF_WITHOUT_NEON then strcat buf lit_neon else buf
  buf

/-- The feature string as the design document words it: each entry rendered as
the sign character followed by the name. -/
def specEntry (f : Feature) : List Char :=
  (if f.getValue then '+' else '-') :: f.getKey.chars

/-- The feature string as the design document words it: the rendered entries
joined by a single comma. -/
def specFeatureString (features : List Feature) : List Char :=
  [','].intercalate (features.map specEntry)

/-- The C string with the characters of a Lean string literal, when it has no
terminator inside. -/
def CStr.ofString (s : String) (h : ∀ c ∈ s.toList, c ≠ NUL) : CStr := ⟨s.toList, h⟩

/-- Every key of the list is free of the comma character. -/
def CommaFree (features : List Feature) : Prop :=
  ∀ f ∈ features, ',' ∉ f.getKey.chars

/-- The characters appended after the loop in a configuration. -/
def workaroundSuffix (cfg : Config) : List Char :=
  (if cfg.avx512Workaround then lit_avx512f.chars else []) ++
    (if cfg.PLATFORM_IS_ARMHF_WITHOUT_NEON then lit_neon.chars else [])

/-- No two adjacent characters of the string are both commas. -/
def NoDoubleComma (s : List Char) : Prop :=
  s.Chain' fun a b => ¬(a = ',' ∧ b = ',')

/-- A configuration without workaround: LLVM 6 on x86. -/
def cfgPlain : Config := ⟨600, true, false⟩

/-- A configuration with the `avx512f` workaround: LLVM 3.9 on x86. -/
def cfgOldX86 : Config := ⟨390, true, false⟩

/-- A configuration with the `neon` workaround: LLVM 6 on ARM hard-float
without NEON. -/
def cfgArmhf : Config := ⟨600, false, true⟩

/-- The feature set of the documented scenario. -/
def scenarioFeatures : List Feature :=
  [⟨CStr.ofString "avx2" (by decide), true⟩, ⟨CStr.ofString "sse4.1" (by decide), false⟩]

/-- A feature set with one enabled key that is a single comma. -/
def commaKeyFeatures : List Feature := [⟨CStr.ofString "," (by decide), true⟩]

/-- A feature set with one enabled key that spells two entries. -/
def joinedKeyFeatures : List Feature := [⟨CStr.ofString "a,+b" (by decide), true⟩]

/-- A feature set with the two enabled keys `a` and `b`. -/
def splitKeyFeatures : List Feature :=
  [⟨CStr.ofString "a" (by decide), true⟩, ⟨CStr.ofString "b" (by decide), true⟩]

/-- The statement of the design document about a workaround, for one feature
set: the string returned under `cfg` is the string returned without workaround
(under `cfg0`) followed by `suffix`; the precomputed size grows by `extra`,
which is the length of `suffix`; the buffer is sized exactly to the bytes
written, terminator included; and, when no key contains a comma, the result
has no leading, trailing or double comma. -/
def WorkaroundExact (cfg0 cfg : Config) (features : List Feature) (suffix : List Char)
    (extra : Nat) : Prop :=
  (LLVMGetHostCPUFeatures cfg features).str
      = (LLVMGetHostCPUFeatures cfg0 features).str ++ suffix ∧
  (LLVMGetHostCPUFeatures cfg features).size
      = (LLVMGetHostCPUFeatures cfg0 features).size + extra ∧
  extra = suffix.length ∧
  (LLVMGetHostCPUFeatures cfg features).written = (LLVMGetHostCPUFeatures cfg features).size ∧
  (LLVMGetHostCPUFeatures cfg features).size
      = (LLVMGetHostCPUFeatures cfg features).str.length + 1 ∧
  (CommaFree features →
    (LLVMGetHostCPUFeatures cfg features).str.head? ≠ some ',' ∧
    (LLVMGetHostCPUFeatures cfg features).str.getLast? ≠ some ',' ∧
    NoDoubleComma (LLVMGetHostCPUFeatures cfg features).str)

/-! ## Target machine construction -/

/-- The fields of `pass_opt_t` that `codegen_machine` reads. -/
structure pass_opt_t where
  release : Bool
  library : Bool
  pic : Bool
  triple : String
  cpu : String
  features : String
deriving DecidableEq, Repr

/-- The enumeration `llvm::Reloc::Model`. -/
inductive Reloc.Model where
  | Static | PIC_ | DynamicNoPIC | ROPI | RWPI | ROPI_RWPI
deriving DecidableEq, Repr

/-- The enumeration `llvm::CodeGenOpt::Level`. -/
inductive CodeGenOpt.Level where
  | None | Less | Default | Aggressive
deriving DecidableEq, Repr

/-- The enumeration `llvm::CodeModel::Model`. -/
inductive CodeModel.Model where
  | Default | JITDefault | Small | Kernel | Medium | Large
deriving DecidableEq, Repr

/-- The field of `llvm::TargetOptions` that `codegen_machine` sets; a default
constructed value has it cleared. -/
structure TargetOptions where
  TrapUnreachable : Bool := false
deriving DecidableEq, Repr

/-- The arguments of the call `Target::createTargetMachine`.
Before LLVM 6 the code model is a plain enumerator and there is no JIT flag
(`JIT = none`); from LLVM 6 on the code model is optional and the JIT flag is
passed. The relocation model is optional in both; `none` is the unset model. -/
structure TargetMachineArgs where
  TT : String
  CPU : String
  Features : String
  Options : TargetOptions
  RM : Option Reloc.Model
  CM : Option CodeModel.Model
  OL : CodeGenOpt.Level
  JIT : Option Bool
deriving DecidableEq, Repr

/-- The function `codegen_machine`: the arguments it hands to
`createTargetMachine`, under the compile-time version `PONY_LLVM`. -/
def codegen_machine (PONY_LLVM : Nat) (opt : pass_opt_t) (jit : Bool) : TargetMachineArgs :=
  let reloc : Option Reloc.Model := none
  let reloc := if opt.pic || opt.library then some Reloc.Model.PIC_ else reloc
  let opt_level := if opt.release then CodeGenOpt.Level.Aggressive else CodeGenOpt.Level.None
  let options : TargetOptions := ⟨false⟩
  let options := { options with TrapUnreachable := true }
  if PONY_LLVM < 600 then
    let model := if jit then CodeModel.Model.JITDefault else CodeModel.Model.Default
    ⟨opt.triple, opt.cpu, opt.features, options, reloc, some model, opt_level, none⟩
  else
    ⟨opt.triple, opt.cpu, opt.features, options, reloc, none, opt_level, some jit⟩

/-! ## Metadata -/

/-- The result of a function that may stop at a failed `pony_assert` or a
failed checked cast. -/
inductive Outcome (α : Type) where
  | ok (a : α)
  | assert_fail
deriving DecidableEq, Repr

/-- Sequencing of operations that may stop at a failed assertion. -/
def Outcome.bind {α β : Type} (x : Outcome α) (f : α → Outcome β) : Outcome β :=
  match x with
  | .ok a => f a
  | .assert_fail => .assert_fail

/-- Modelled from the spec: the macro `pony_assert` (its header `ponyassert.h`
is not among the sources); internal-invariant violations fail fast, so the
operation stops when the condition is false. -/
def pony_assert (cond : Bool) : Outcome Unit :=
  if cond then .ok () else .assert_fail

mutual
/-- A genuine metadata node (`llvm::MDNode`): a tuple of operands. -/
inductive MDNode where
  | tuple (operands : List Metadata)
/-- A piece of metadata (`llvm::Metadata`), by its dynamic class. -/
inductive Metadata where
  | MDNode (n : MDNode)
  | ConstantAsMetadata (c : Nat)
  | MDString (s : String)
  | LocalAsMetadata (v : Nat)
end

/-- A metadata payload wrapped as a value (`llvm::MetadataAsValue`). -/
structure MetadataAsValue where
  getMetadata : Metadata

/-- The test `isa<MDNode>(md)`. -/
def Metadata.isaMDNode : Metadata → Bool
  | .MDNode _ => true
  | _ => false

/-- The test `isa<ConstantAsMetadata>(md)`. -/
def Metadata.isaConstantAsMetadata : Metadata → Bool
  | .ConstantAsMetadata _ => true
  | _ => false

/-- The cast `dyn_cast<MDNode>(md)`: the node, or null. -/
def Metadata.dyn_cast_MDNode : Metadata → Option Host.MDNode
  | .MDNode n => some n
  | _ => none

/-- The call `MDNode::get(ctx, md)`: the node whose only operand is `md`. -/
def MDNode.get (md : Metadata) : MDNode := .tuple [md]

/-- The function `extractMDNode`. -/
def extractMDNode (mdv : MetadataAsValue) : Outcome MDNode :=
  let md := mdv.getMetadata
  (pony_assert (md.isaMDNode || md.isaConstantAsMetadata)).bind fun _ =>
    match md.dyn_cast_MDNode with
    | some n => .ok n
    | none => .ok (MDNode.get md)

/-- Modelled from the spec: the attachment table of one value (the storage
behind `setMetadata` and `getMetadata` of the backend, which is not among the
sources): at most one node per key. -/
abbrev Attachments := List (String × MDNode)

/-- Modelled from the spec: `getMetadata(key)` of the backend, the node
attached under `key` or null. -/
def Attachments.getMetadata (t : Attachments) (key : String) : Option MDNode :=
  (t.find? fun e => e.1 == key).map Prod.snd

/-- Modelled from the spec: `setMetadata(key, node)` of the backend for a node
that is not null: any prior node under `key` is dropped, then `node` is
attached (last write wins). -/
def Attachments.setMetadata (t : Attachments) (key : String) (n : MDNode) : Attachments :=
  (key, n) :: t.filter fun e => !(e.1 == key)

/-- A value (`llvm::Value`) by its dynamic class, with the attachment table of
the two classes that carry one. -/
inductive Value where
  | Instruction (md : Attachments)
  | Function (md : Attachments)
  | Other

/-- The function `LLVMHasMetadataStr`; the checked `cast<Function>` stops on a
value that is neither an instruction nor a function. -/
def LLVMHasMetadataStr (val : Value) (str : String) : Outcome Bool :=
  match val with
  | .Instruction md => .ok (md.getMetadata str).isSome
  | .Function md => .ok (md.getMetadata str).isSome
  | .Other => .assert_fail

/-- The function `LLVMSetMetadataStr`, returning the updated value; `node` is
`none` for a null handle. -/
def LLVMSetMetadataStr (val : Value) (str : String) (node : Option MetadataAsValue) :
    Outcome Value :=
  (pony_assert node.isSome).bind fun _ =>
    match node with
    | none => .assert_fail
    | some mdv =>
      (extractMDNode mdv).bind fun n =>
        match val with
        | .Instruction md => .ok (.Instruction (md.setMetadata str n))
        | .Function md => .ok (.Function (md.setMetadata str n))
        | .Other => .assert_fail

/-- The attachment table of a value that carries one. -/
def Value.attachments : Value → Option Attachments
  | .Instruction md => some md
  | .Function md => some md
  | .Other => none

/-! ## Intrinsic declarations -/

/-- A module (`llvm::Module`), by the context it lives in. -/
structure Module where
  getContext : Nat
deriving DecidableEq, Repr

/-- The types `host.cc` builds for intrinsic parameters, each in a context. -/
inductive LLVMType where
  | Int8PtrTy (ctx : Nat)
  | IntNTy (ctx : Nat) (bits : Nat)
deriving DecidableEq, Repr

/-- The intrinsic identifiers `host.cc` asks for. -/
inductive Intrinsic where
  | memcpy | memmove | lifetime_start | lifetime_end
deriving DecidableEq, Repr

/-- The arguments of a call `Intrinsic::getDeclaration(m, id, tys)`. -/
structure DeclarationRequest where
  m : Module
  id : Intrinsic
  tys : List LLVMType
deriving DecidableEq, Repr

/-- The function `LLVMMemcpy`: the declaration it requests from the module. -/
def LLVMMemcpy (module : Module) (ilp32 : Bool) : DeclarationRequest :=
  let m := module
  let params0 := LLVMType.Int8PtrTy m.getContext
  let params1 := params0
  let params2 := LLVMType.IntNTy m.getContext (if ilp32 then 32 else 64)
  ⟨m, Intrinsic.memcpy, [params0, params1, params2]⟩

/-- The function `LLVMMemmove`: the declaration it requests from the module. -/
def LLVMMemmove (module : Module) (ilp32 : Bool) : DeclarationRequest :=
  let m := module
  let params0 := LLVMType.Int8PtrTy m.getContext
  let params1 := params0
  let params2 := LLVMType.IntNTy m.getContext (if ilp32 then 32 else 64)
  ⟨m, Intrinsic.memmove, [params0, params1, params2]⟩

/-- The nodes attached to a value under a key, all of them. -/
def Value.attachedUnder (v : Value) (key : String) : List MDNode :=
  match v with
  | .Instruction md => (md.filter fun e => e.1 == key).map Prod.snd
  | .Function md => (md.filter fun e => e.1 == key).map Prod.snd
  | .Other => []

/-- Two calls of `LLVMSetMetadataStr` in a row on the same value and key. -/
def setMetadataTwice (v : Value) (key : String) (n1 n2 : Option MetadataAsValue) :
    Outcome Value :=
  (LLVMSetMetadataStr v key n1).bind fun v1 => LLVMSetMetadataStr v1 key n2

/-! ## Lemmas on the two loops -/

theorem specFeatureString_nil : specFeatureString [] = [] := rfl

theorem specFeatureString_single (f : Feature) : specFeatureString [f] = specEntry f := by
  simp [specFeatureString, List.intercalate]

theorem specFeatureString_cons_cons (f g : Feature) (rest : List Feature) :
    specFeatureString (f :: g :: rest) = specEntry f ++ ',' :: specFeatureString (g :: rest) := by
  simp [specFeatureString, List.intercalate]

theorem formatLoop_size (features : List Feature) :
    ∀ buf : Buf, (formatLoop buf features).size = buf.size := by
  induction features with
  | nil => intro buf; rfl
  | cons f rest ih =>
    intro buf
    simp only [formatLoop]
    rw [ih]
    cases f.getValue <;> cases rest <;> simp [strcat]

theorem formatLoop_str (features : List Feature) :
    ∀ buf : Buf, (formatLoop buf features).str = buf.str ++ specFeatureString features := by
  induction features with
  | nil => intro buf; simp [formatLoop, specFeatureString_nil]
  | cons f rest ih =>
    intro buf
    simp only [formatLoop]
    rw [ih]
    cases rest with
    | nil =>
      cases hv : f.getValue <;>
        simp [strcat, specFeatureString_nil, specFeatureString_single, specEntry, hv,
          lit_plus, lit_minus]
    | cons g rest =>
      cases hv : f.getValue <;>
        simp [strcat, specFeatureString_cons_cons, specEntry, hv, lit_plus, lit_minus,
          lit_comma]

theorem formatLoop_written (features : List Feature) :
    ∀ buf : Buf, buf.written = buf.str.length + 1 →
      (formatLoop buf features).written = (formatLoop buf features).str.length + 1 := by
  induction features with
  | nil => intro buf h; simpa [formatLoop] using h
  | cons f rest ih =>
    intro buf h
    simp only [formatLoop]
    apply ih
    cases f.getValue <;> cases rest <;>
      simp [strcat, CStr.length, lit_plus, lit_minus, lit_comma, h] <;> omega

theorem sizeLoop_acc (features : List Feature) :
    ∀ acc : Nat, sizeLoop acc features = acc + sizeLoop 0 features := by
  induction features with
  | nil => intro acc; simp [sizeLoop]
  | cons f rest ih =>
    intro acc
    simp only [sizeLoop]
    rw [ih, ih (0 + _)]
    omega

theorem sizeLoop_cons (f : Feature) (rest : List Feature) :
    sizeLoop 0 (f :: rest) = f.getKey.length + 2 + sizeLoop 0 rest := by
  simp only [sizeLoop]
  rw [sizeLoop_acc]
  omega

theorem sizeLoop_eq_length (features : List Feature) (hne : features ≠ []) :
    sizeLoop 0 features = (specFeatureString features).length + 1 := by
  induction features with
  | nil => exact absurd rfl hne
  | cons f rest ih =>
    cases rest with
    | nil => simp [sizeLoop, specFeatureString_single, specEntry, CStr.length]
    | cons g rest =>
      have h := ih (by simp)
      rw [sizeLoop_cons, h]
      simp [specFeatureString_cons_cons, specEntry, CStr.length]
      omega

theorem strcat_written (b : Buf) (src : CStr) (h : b.written = b.str.length + 1) :
    (strcat b src).written = (strcat b src).str.length + 1 := by
  simp [strcat, CStr.length, h]

theorem LLVMGetHostCPUFeatures_str (cfg : Config) (features : List Feature) :
    (LLVMGetHostCPUFeatures cfg features).str
      = specFeatureString features ++ workaroundSuffix cfg := by
  unfold LLVMGetHostCPUFeatures workaroundSuffix
  cases cfg.avx512Workaround <;> cases cfg.PLATFORM_IS_ARMHF_WITHOUT_NEON <;>
    simp [strcat, formatLoop_str, Buf.setTerminator, malloc]

theorem LLVMGetHostCPUFeatures_size (cfg : Config) (features : List Feature) :
    (LLVMGetHostCPUFeatures cfg features).size
      = sizeLoop 0 features + (if cfg.avx512Workaround then 9 else 0)
        + (if cfg.PLATFORM_IS_ARMHF_WITHOUT_NEON then 6 else 0) := by
  unfold LLVMGetHostCPUFeatures
  cases cfg.avx512Workaround <;> cases cfg.PLATFORM_IS_ARMHF_WITHOUT_NEON <;>
    simp [strcat, formatLoop_size, Buf.setTerminator, malloc]

theorem LLVMGetHostCPUFeatures_written (cfg : Config) (features : List Feature) :
    (LLVMGetHostCPUFeatures cfg features).written
      = (LLVMGetHostCPUFeatures cfg features).str.length + 1 := by
  unfold LLVMGetHostCPUFeatures
  have h0 : ∀ n, (formatLoop (malloc n).setTerminator features).written
      = (formatLoop (malloc n).setTerminator features).str.length + 1 :=
    fun n => formatLoop_written features _ (by simp [Buf.setTerminator, malloc])
  cases cfg.avx512Workaround <;> cases cfg.PLATFORM_IS_ARMHF_WITHOUT_NEON <;>
    simp only [if_true, if_false, Bool.false_eq_true]
  · exact h0 _
  · exact strcat_written _ _ (h0 _)
  · exact strcat_written _ _ (h0 _)
  · exact strcat_written _ _ (strcat_written _ _ (h0 _))

/-! ## Lemmas on commas -/

theorem specEntry_injective : Function.Injective specEntry := by
  intro f g h
  obtain ⟨⟨fc, fh⟩, fv⟩ := f
  obtain ⟨⟨gc, gh⟩, gv⟩ := g
  simp only [specEntry, List.cons.injEq] at h
  obtain ⟨hs, hc⟩ := h
  subst hc
  cases fv <;> cases gv <;> simp_all

theorem comma_not_mem_specEntry (f : Feature) (h : ',' ∉ f.getKey.chars) :
    ',' ∉ specEntry f := by
  cases hv : f.getValue <;> simp [specEntry, hv, h]

theorem noDoubleComma_of_not_mem (l : List Char) (h : ',' ∉ l) : NoDoubleComma l := by
  induction l with
  | nil => exact List.chain'_nil
  | cons a l ih =>
    simp only [List.mem_cons, not_or] at h
    refine List.Chain'.cons' (ih h.2) ?_
    intro y _ hy
    exact h.1 hy.1.symm

theorem getLast?_ne_comma_of_not_mem (l : List Char) (h : ',' ∉ l) :
    l.getLast? ≠ some ',' := by
  intro hl
  exact h (List.mem_of_getLast?_eq_some hl)

theorem getLast?_append_cons_of_ne_nil (a : List Char) (c : Char) (l : List Char)
    (h : l ≠ []) : (a ++ c :: l).getLast? = l.getLast? := by
  cases l with
  | nil => exact absurd rfl h
  | cons x xs =>
    rw [List.getLast?_append, List.getLast?_cons_cons]
    cases hh : (x :: xs).getLast? with
    | none => simp at hh
    | some y => simp

theorem specFeatureString_commas (features : List Feature) (hne : features ≠ [])
    (hc : CommaFree features) :
    specFeatureString features ≠ [] ∧
    (specFeatureString features).head? ≠ some ',' ∧
    (specFeatureString features).getLast? ≠ some ',' ∧
    NoDoubleComma (specFeatureString features) := by
  induction features with
  | nil => exact absurd rfl hne
  | cons f rest ih =>
    have hf : ',' ∉ specEntry f := comma_not_mem_specEntry f (hc f (by simp))
    cases rest with
    | nil =>
      rw [specFeatureString_single]
      refine ⟨by simp [specEntry], ?_, getLast?_ne_comma_of_not_mem _ hf,
        noDoubleComma_of_not_mem _ hf⟩
      cases hv : f.getValue <;> simp [specEntry, hv]
    | cons g rest =>
      obtain ⟨h1, h2, h3, h4⟩ := ih (by simp) (fun x hx => hc x (List.mem_cons_of_mem _ hx))
      rw [specFeatureString_cons_cons]
      refine ⟨by simp, ?_, ?_, ?_⟩
      · cases hv : f.getValue <;> simp [specEntry, hv]
      · rw [getLast?_append_cons_of_ne_nil _ _ _ h1]
        exact h3
      · unfold NoDoubleComma at h4 ⊢
        rw [List.chain'_split]
        constructor
        · refine List.Chain'.append (noDoubleComma_of_not_mem _ hf) (List.chain'_singleton _) ?_
          intro x hx y _ hxy
          exact hf (hxy.1 ▸ List.mem_of_getLast?_eq_some hx)
        · refine List.Chain'.cons' h4 ?_
          intro y hy hyy
          exact h2 (by rw [← hyy.2]; exact hy)

theorem noDoubleComma_append_comma (base tail : List Char) (hb : NoDoubleComma base)
    (hl : base.getLast? ≠ some ',') (ht : ',' ∉ tail) :
    NoDoubleComma (base ++ ',' :: tail) := by
  unfold NoDoubleComma at hb ⊢
  rw [List.chain'_split]
  constructor
  · refine List.Chain'.append hb (List.chain'_singleton _) ?_
    intro x hx y _ hxy
    exact hl (by rw [← hxy.1]; exact hx)
  · refine List.Chain'.cons' (noDoubleComma_of_not_mem _ ht) ?_
    intro y hy hyy
    exact ht (hyy.2 ▸ List.mem_of_mem_head? hy)

theorem head?_append_of_ne_nil (a b : List Char) (h : a ≠ []) :
    (a ++ b).head? = a.head? := by
  cases a with
  | nil => exact absurd rfl h
  | cons x xs => rfl

theorem specFeatureString_injective (a b : List Feature) (ha : CommaFree a)
    (hb : CommaFree b) (h : specFeatureString a = specFeatureString b) : a = b := by
  have key : ∀ l : List Feature, l ≠ [] → CommaFree l →
      (specFeatureString l).splitOn ',' = l.map specEntry := by
    intro l hne hl
    refine List.splitOn_intercalate _ ',' ?_ (by simpa using hne)
    intro e he
    obtain ⟨f, hf, rfl⟩ := List.mem_map.mp he
    exact comma_not_mem_specEntry f (hl f hf)
  by_cases hae : a = []
  · by_cases hbe : b = []
    · rw [hae, hbe]
    · have := (specFeatureString_commas b hbe hb).1
      rw [← h, hae, specFeatureString_nil] at this
      exact absurd rfl this
  · by_cases hbe : b = []
    · have := (specFeatureString_commas a hae ha).1
      rw [h, hbe, specFeatureString_nil] at this
      exact absurd rfl this
    · have h1 := key a hae ha
      rw [h, key b hbe hb] at h1
      exact (List.map_injective_iff.mpr specEntry_injective) h1.symm

theorem buffer_exact_of_ne_nil (cfg : Config) (features : List Feature)
    (hne : features ≠ []) :
    (LLVMGetHostCPUFeatures cfg features).size
      = (LLVMGetHostCPUFeatures cfg features).str.length + 1 := by
  rw [LLVMGetHostCPUFeatures_size, LLVMGetHostCPUFeatures_str, sizeLoop_eq_length _ hne]
  unfold workaroundSuffix
  cases cfg.avx512Workaround <;> cases cfg.PLATFORM_IS_ARMHF_WITHOUT_NEON <;>
    simp [lit_avx512f, lit_neon]

/-! ## The feature string -/

/-- Claim C1: in a configuration without workaround, the string built by
`LLVMGetHostCPUFeatures` is the list of entries, each rendered as `+name` when
enabled and `-name` when disabled, in iteration order and joined by a single
comma; the feature set `[(avx2, true), (sse4.1, false)]` gives `+avx2,-sse4.1`. -/
theorem feature_string_is_joined_entries (cfg : Config)
    (hx : cfg.avx512Workaround = false)
    (hn : cfg.PLATFORM_IS_ARMHF_WITHOUT_NEON = false) (features : List Feature) :
    (LLVMGetHostCPUFeatures cfg features).str
        = [','].intercalate
            (features.map fun f => (if f.getValue then '+' else '-') :: f.getKey.chars)
      ∧ (LLVMGetHostCPUFeatures cfg scenarioFeatures).str = "+avx2,-sse4.1".toList := by
  have h : ∀ fs, (LLVMGetHostCPUFeatures cfg fs).str = specFeatureString fs := by
    intro fs
    rw [LLVMGetHostCPUFeatures_str]
    simp [workaroundSuffix, hx, hn]
  refine ⟨h features, ?_⟩
  rw [h]
  decide

/-- The hypotheses of `feature_string_is_joined_entries` hold for LLVM 6 on x86
and the documented scenario. -/
theorem feature_string_is_joined_entries_witness :
    cfgPlain.avx512Workaround = false ∧ cfgPlain.PLATFORM_IS_ARMHF_WITHOUT_NEON = false ∧
      ((LLVMGetHostCPUFeatures cfgPlain scenarioFeatures).str
        = [','].intercalate
            (scenarioFeatures.map fun f => (if f.getValue then '+' else '-') :: f.getKey.chars)
      ∧ (LLVMGetHostCPUFeatures cfgPlain scenarioFeatures).str = "+avx2,-sse4.1".toList) :=
  ⟨by decide, by decide,
    feature_string_is_joined_entries cfgPlain (by decide) (by decide) scenarioFeatures⟩

/-- Claim C2, as stated, fails: a key that is a single comma is formatted as
`+,`, a string that ends in a comma. -/
theorem comma_key_gives_trailing_comma :
    (LLVMGetHostCPUFeatures cfgPlain commaKeyFeatures).str = "+,".toList ∧
      (LLVMGetHostCPUFeatures cfgPlain commaKeyFeatures).str.getLast? = some ',' := by
  decide

/-- Claim C2, amended: for a feature set whose keys contain no comma, in a
configuration without workaround, the formatted string has no leading comma,
no trailing comma and no two adjacent commas, it is empty for the empty set,
and otherwise its comma-separated entries are exactly the keys, each prefixed
by its one sign character. -/
theorem feature_string_commas_of_commaFree (cfg : Config)
    (hx : cfg.avx512Workaround = false)
    (hn : cfg.PLATFORM_IS_ARMHF_WITHOUT_NEON = false) (features : List Feature)
    (hc : CommaFree features) :
    (LLVMGetHostCPUFeatures cfg features).str.head? ≠ some ',' ∧
    (LLVMGetHostCPUFeatures cfg features).str.getLast? ≠ some ',' ∧
    NoDoubleComma (LLVMGetHostCPUFeatures cfg features).str ∧
    (features = [] → (LLVMGetHostCPUFeatures cfg features).str = []) ∧
    (features ≠ [] → (LLVMGetHostCPUFeatures cfg features).str.splitOn ','
      = features.map fun f => (if f.getValue then '+' else '-') :: f.getKey.chars) := by
  have h : (LLVMGetHostCPUFeatures cfg features).str = specFeatureString features := by
    rw [LLVMGetHostCPUFeatures_str]
    simp [workaroundSuffix, hx, hn]
  rw [h]
  by_cases hne : features = []
  · subst hne
    simp [specFeatureString_nil, NoDoubleComma]
  · obtain ⟨_, h2, h3, h4⟩ := specFeatureString_commas features hne hc
    refine ⟨h2, h3, h4, fun he => absurd he hne, fun _ => ?_⟩
    refine List.splitOn_intercalate _ ',' ?_ (by simpa using hne)
    intro e he
    obtain ⟨f, hf, rfl⟩ := List.mem_map.mp he
    exact comma_not_mem_specEntry f (hc f hf)

/-- The hypotheses of `feature_string_commas_of_commaFree` hold for LLVM 6 on
x86 and the documented scenario. -/
theorem feature_string_commas_of_commaFree_witness :
    cfgPlain.avx512Workaround = false ∧ cfgPlain.PLATFORM_IS_ARMHF_WITHOUT_NEON = false ∧
    CommaFree scenarioFeatures ∧
    ((LLVMGetHostCPUFeatures cfgPlain scenarioFeatures).str.head? ≠ some ',' ∧
    (LLVMGetHostCPUFeatures cfgPlain scenarioFeatures).str.getLast? ≠ some ',' ∧
    NoDoubleComma (LLVMGetHostCPUFeatures cfgPlain scenarioFeatures).str ∧
    (scenarioFeatures = [] → (LLVMGetHostCPUFeatures cfgPlain scenarioFeatures).str = []) ∧
    (scenarioFeatures ≠ [] → (LLVMGetHostCPUFeatures cfgPlain scenarioFeatures).str.splitOn ','
      = scenarioFeatures.map fun f => (if f.getValue then '+' else '-') :: f.getKey.chars)) :=
  ⟨by decide, by decide, by unfold CommaFree; decide,
    feature_string_commas_of_commaFree cfgPlain (by decide) (by decide) scenarioFeatures
      (by unfold CommaFree; decide)⟩

/-- Claim C3 at the empty feature set: the precomputed size is 0, yet the
store of the terminator writes one byte, past the end of the allocation. -/
theorem empty_feature_set_overflows :
    (LLVMGetHostCPUFeatures cfgPlain []).size = 0 ∧
    (LLVMGetHostCPUFeatures cfgPlain []).str = [] ∧
    (LLVMGetHostCPUFeatures cfgPlain []).written = 1 ∧
    (LLVMGetHostCPUFeatures cfgPlain []).overflow = true := by
  decide

/-- Claim C4, as stated, fails: the one key `a,+b` and the two keys `a`, `b`
(all enabled) are different feature sets with the same formatted string. -/
theorem formatting_not_injective :
    (LLVMGetHostCPUFeatures cfgPlain joinedKeyFeatures).str
        = (LLVMGetHostCPUFeatures cfgPlain splitKeyFeatures).str ∧
      (LLVMGetHostCPUFeatures cfgPlain joinedKeyFeatures).str = "+a,+b".toList ∧
      joinedKeyFeatures ≠ splitKeyFeatures := by
  refine ⟨by decide, by decide, ?_⟩
  intro h
  have := congrArg List.length h
  simp [joinedKeyFeatures, splitKeyFeatures] at this

/-- Claim C4, amended: on ordered feature sets whose keys contain no comma the
formatting is injective, in every configuration: equal formatted strings come
from equal feature sets. -/
theorem formatting_injective_of_commaFree (cfg : Config) (a b : List Feature)
    (ha : CommaFree a) (hb : CommaFree b)
    (h : (LLVMGetHostCPUFeatures cfg a).str = (LLVMGetHostCPUFeatures cfg b).str) :
    a = b := by
  rw [LLVMGetHostCPUFeatures_str, LLVMGetHostCPUFeatures_str] at h
  exact specFeatureString_injective a b ha hb (List.append_cancel_right h)

/-- The hypotheses of `formatting_injective_of_commaFree` hold for the
documented scenario compared with itself. -/
theorem formatting_injective_of_commaFree_witness :
    CommaFree scenarioFeatures ∧
      (LLVMGetHostCPUFeatures cfgPlain scenarioFeatures).str
        = (LLVMGetHostCPUFeatures cfgPlain scenarioFeatures).str ∧
      scenarioFeatures = scenarioFeatures :=
  ⟨by unfold CommaFree; decide, rfl,
    formatting_injective_of_commaFree cfgPlain scenarioFeatures scenarioFeatures
      (by unfold CommaFree; decide) (by unfold CommaFree; decide) rfl⟩

theorem workaroundExact_of_suffix (cfg0 cfg : Config) (features : List Feature)
    (tail : List Char) (extra : Nat)
    (h0 : workaroundSuffix cfg0 = []) (h1 : workaroundSuffix cfg = ',' :: tail)
    (hs0 : (LLVMGetHostCPUFeatures cfg0 features).size = sizeLoop 0 features)
    (hs1 : (LLVMGetHostCPUFeatures cfg features).size = sizeLoop 0 features + extra)
    (he : extra = (',' :: tail).length) (ht : ',' ∉ tail) (htl : tail.getLast? ≠ none)
    (hne : features ≠ []) :
    WorkaroundExact cfg0 cfg features (',' :: tail) extra := by
  have hsz := buffer_exact_of_ne_nil cfg features hne
  have hstr : (LLVMGetHostCPUFeatures cfg features).str
      = specFeatureString features ++ ',' :: tail := by
    rw [LLVMGetHostCPUFeatures_str, h1]
  refine ⟨?_, ?_, he, ?_, hsz, ?_⟩
  · rw [hstr, LLVMGetHostCPUFeatures_str, h0, List.append_nil]
  · rw [hs1, hs0]
  · rw [LLVMGetHostCPUFeatures_written, hsz]
  · intro hc
    obtain ⟨g1, g2, g3, g4⟩ := specFeatureString_commas features hne hc
    rw [hstr]
    refine ⟨?_, ?_, noDoubleComma_append_comma _ _ g4 g3 ht⟩
    · rw [head?_append_of_ne_nil _ _ g1]
      exact g2
    · cases tail with
      | nil => exact absurd rfl htl
      | cons x xs =>
        rw [getLast?_append_cons_of_ne_nil _ _ _ (by simp)]
        exact getLast?_ne_comma_of_not_mem _ ht

/-- Claim C10, as stated, fails. With the `avx512f` workaround the empty
feature set gives `,-avx512f`, which starts with a comma, in a buffer of 9
bytes of which 10 are written, and with the `neon` workaround `,-neon` in a
buffer of 6 bytes of which 7 are written; a key that is a single comma gives
`+,,-avx512f`, which has two adjacent commas. -/
theorem workaround_breaks_on_empty_and_comma :
    (LLVMGetHostCPUFeatures cfgOldX86 []).str = ",-avx512f".toList ∧
    (LLVMGetHostCPUFeatures cfgOldX86 []).str.head? = some ',' ∧
    (LLVMGetHostCPUFeatures cfgOldX86 []).size = 9 ∧
    (LLVMGetHostCPUFeatures cfgOldX86 []).written = 10 ∧
    (LLVMGetHostCPUFeatures cfgArmhf []).str = ",-neon".toList ∧
    (LLVMGetHostCPUFeatures cfgArmhf []).size = 6 ∧
    (LLVMGetHostCPUFeatures cfgArmhf []).written = 7 ∧
    (LLVMGetHostCPUFeatures cfgOldX86 commaKeyFeatures).str = "+,,-avx512f".toList ∧
    ¬ NoDoubleComma (LLVMGetHostCPUFeatures cfgOldX86 commaKeyFeatures).str := by
  refine ⟨by decide, by decide, by decide, by decide, by decide, by decide, by decide,
    by decide, ?_⟩
  have h : (LLVMGetHostCPUFeatures cfgOldX86 commaKeyFeatures).str = "+,,-avx512f".toList := by
    decide
  rw [h]
  simp [NoDoubleComma]

/-- Claim C10, amended: for every feature set that is not empty, under the
`avx512f` workaround alone the result is the base string followed by
`,-avx512f` and the size grows by 9, and under the `neon` workaround alone the
result is the base string followed by `,-neon` and the size grows by 6; in both
the extra size is the length of the suffix, the buffer is sized exactly to the
bytes written including the terminator, and, when no key contains a comma, the
result has no leading, trailing or double comma. -/
theorem workaround_exact_of_ne_nil (cfg0 cfg : Config) (features : List Feature)
    (h0x : cfg0.avx512Workaround = false)
    (h0n : cfg0.PLATFORM_IS_ARMHF_WITHOUT_NEON = false)
    (hne : features ≠ []) :
    (cfg.avx512Workaround = true → cfg.PLATFORM_IS_ARMHF_WITHOUT_NEON = false →
      WorkaroundExact cfg0 cfg features ",-avx512f".toList 9) ∧
    (cfg.avx512Workaround = false → cfg.PLATFORM_IS_ARMHF_WITHOUT_NEON = true →
      WorkaroundExact cfg0 cfg features ",-neon".toList 6) := by
  have hs0 : (LLVMGetHostCPUFeatures cfg0 features).size = sizeLoop 0 features := by
    rw [LLVMGetHostCPUFeatures_size]
    simp [h0x, h0n]
  have hw0 : workaroundSuffix cfg0 = [] := by simp [workaroundSuffix, h0x, h0n]
  constructor
  · intro hx hn
    refine workaroundExact_of_suffix cfg0 cfg features "-avx512f".toList 9 hw0 ?_ hs0 ?_
      (by decide) (by decide) (by decide) hne
    · simp [workaroundSuffix, hx, hn, lit_avx512f]
    · rw [LLVMGetHostCPUFeatures_size]
      simp [hx, hn]
  · intro hx hn
    refine workaroundExact_of_suffix cfg0 cfg features "-neon".toList 6 hw0 ?_ hs0 ?_
      (by decide) (by decide) (by decide) hne
    · simp [workaroundSuffix, hx, hn, lit_neon]
    · rw [LLVMGetHostCPUFeatures_size]
      simp [hx, hn]

/-- The hypotheses of `workaround_exact_of_ne_nil` hold for the documented
scenario, under each of the two workarounds. -/
theorem workaround_exact_of_ne_nil_witness :
    cfgPlain.avx512Workaround = false ∧ cfgPlain.PLATFORM_IS_ARMHF_WITHOUT_NEON = false ∧
    scenarioFeatures ≠ [] ∧
    WorkaroundExact cfgPlain cfgOldX86 scenarioFeatures ",-avx512f".toList 9 ∧
    WorkaroundExact cfgPlain cfgArmhf scenarioFeatures ",-neon".toList 6 :=
  ⟨by decide, by decide, by simp [scenarioFeatures],
    (workaround_exact_of_ne_nil cfgPlain cfgOldX86 scenarioFeatures (by decide) (by decide)
      (by simp [scenarioFeatures])).1 (by decide) (by decide),
    (workaround_exact_of_ne_nil cfgPlain cfgArmhf scenarioFeatures (by decide) (by decide)
      (by simp [scenarioFeatures])).2 (by decide) (by decide)⟩

/-! ## Target machine construction -/

theorem codegen_machine_RM (PONY_LLVM : Nat) (opt : pass_opt_t) (jit : Bool) :
    (codegen_machine PONY_LLVM opt jit).RM
      = if (opt.pic || opt.library) = true then some Reloc.Model.PIC_ else none := by
  unfold codegen_machine
  by_cases h : PONY_LLVM < 600 <;> simp [h]

theorem codegen_machine_OL (PONY_LLVM : Nat) (opt : pass_opt_t) (jit : Bool) :
    (codegen_machine PONY_LLVM opt jit).OL
      = if opt.release = true then CodeGenOpt.Level.Aggressive
          else CodeGenOpt.Level.None := by
  unfold codegen_machine
  by_cases h : PONY_LLVM < 600 <;> simp [h]

theorem codegen_machine_TrapUnreachable (PONY_LLVM : Nat) (opt : pass_opt_t) (jit : Bool) :
    (codegen_machine PONY_LLVM opt jit).Options.TrapUnreachable = true := by
  unfold codegen_machine
  by_cases h : PONY_LLVM < 600 <;> simp [h]

/-- Claim C5: for every option set, version and value of `jit`, the relocation
model handed to the backend is `PIC_` when `pic` or `library` is set and is
the unset model when both are clear; with `pic` set it is `PIC_` whatever
`library` is. -/
theorem reloc_model_of_pic_library (PONY_LLVM : Nat) (opt : pass_opt_t) (jit : Bool)
    (release library pic : Bool) (triple cpu features : String) :
    (codegen_machine PONY_LLVM opt jit).RM
        = (if opt.pic = true ∨ opt.library = true then some Reloc.Model.PIC_ else none) ∧
    (codegen_machine PONY_LLVM ⟨release, library, true, triple, cpu, features⟩ jit).RM
        = some Reloc.Model.PIC_ ∧
    (codegen_machine PONY_LLVM ⟨release, true, pic, triple, cpu, features⟩ jit).RM
        = some Reloc.Model.PIC_ ∧
    (codegen_machine PONY_LLVM ⟨release, false, false, triple, cpu, features⟩ jit).RM
        = none := by
  simp only [codegen_machine_RM]
  refine ⟨?_, ?_, ?_, ?_⟩
  · cases opt.pic <;> cases opt.library <;> simp
  · simp
  · simp
  · simp

/-- Claim C6: for every option set, version and value of `jit`, the
optimisation level handed to the backend is `Aggressive` when `release` is set
and `None` when it is clear, and `TrapUnreachable` is set in every case; the
documented scenario gives the unset relocation model, `Aggressive` and the
trap. -/
theorem opt_level_and_trap (PONY_LLVM : Nat) (opt : pass_opt_t) (jit : Bool)
    (library pic : Bool) (triple cpu features : String) :
    (codegen_machine PONY_LLVM opt jit).OL
        = (if opt.release = true then CodeGenOpt.Level.Aggressive
            else CodeGenOpt.Level.None) ∧
    (codegen_machine PONY_LLVM opt jit).Options.TrapUnreachable = true ∧
    (codegen_machine PONY_LLVM ⟨true, library, pic, triple, cpu, features⟩ jit).OL
        = CodeGenOpt.Level.Aggressive ∧
    (codegen_machine PONY_LLVM ⟨false, library, pic, triple, cpu, features⟩ jit).OL
        = CodeGenOpt.Level.None ∧
    codegen_machine 600 ⟨true, false, false, "x86_64-pc-linux", "generic", ""⟩ false
        = ⟨"x86_64-pc-linux", "generic", "", ⟨true⟩, none, none,
            CodeGenOpt.Level.Aggressive, some false⟩ := by
  refine ⟨codegen_machine_OL _ _ _, codegen_machine_TrapUnreachable _ _ _, ?_, ?_, by decide⟩
  · simp [codegen_machine_OL]
  · simp [codegen_machine_OL]

/-! ## Metadata -/

theorem getMetadata_setMetadata (t : Attachments) (key : String) (n : MDNode) :
    (t.setMetadata key n).getMetadata key = some n := by
  simp [Attachments.setMetadata, Attachments.getMetadata]

theorem filter_setMetadata (t : Attachments) (key : String) (n : MDNode) :
    ((t.setMetadata key n).filter fun e => e.1 == key) = [(key, n)] := by
  simp [Attachments.setMetadata, List.filter_cons, List.filter_filter]

theorem extractMDNode_node (n : MDNode) : extractMDNode ⟨Metadata.MDNode n⟩ = .ok n := by
  simp [extractMDNode, pony_assert, Outcome.bind, Metadata.isaMDNode,
    Metadata.dyn_cast_MDNode]

/-- Claim C7: after two calls of `LLVMSetMetadataStr` on the same instruction
or function and the same key, with the nodes `n1` then `n2`, both calls have
succeeded, the one node attached under the key is `n2`, and
`LLVMHasMetadataStr` returns true. -/
theorem set_metadata_twice_overwrites (md : Attachments) (key : String) (n1 n2 : MDNode) :
    (∃ v, setMetadataTwice (Value.Instruction md) key
            (some ⟨Metadata.MDNode n1⟩) (some ⟨Metadata.MDNode n2⟩) = Outcome.ok v ∧
          v.attachedUnder key = [n2] ∧
          (v.attachments.map fun t => t.getMetadata key) = some (some n2) ∧
          LLVMHasMetadataStr v key = Outcome.ok true) ∧
    (∃ v, setMetadataTwice (Value.Function md) key
            (some ⟨Metadata.MDNode n1⟩) (some ⟨Metadata.MDNode n2⟩) = Outcome.ok v ∧
          v.attachedUnder key = [n2] ∧
          (v.attachments.map fun t => t.getMetadata key) = some (some n2) ∧
          LLVMHasMetadataStr v key = Outcome.ok true) := by
  constructor
  · refine ⟨Value.Instruction ((md.setMetadata key n1).setMetadata key n2), ?_, ?_, ?_, ?_⟩
    · simp [setMetadataTwice, LLVMSetMetadataStr, pony_assert, Outcome.bind,
        extractMDNode_node]
    · simp only [Value.attachedUnder, filter_setMetadata, List.map]
    · simp only [Value.attachments, Option.map, getMetadata_setMetadata]
    · simp only [LLVMHasMetadataStr, getMetadata_setMetadata, Option.isSome]
  · refine ⟨Value.Function ((md.setMetadata key n1).setMetadata key n2), ?_, ?_, ?_, ?_⟩
    · simp [setMetadataTwice, LLVMSetMetadataStr, pony_assert, Outcome.bind,
        extractMDNode_node]
    · simp only [Value.attachedUnder, filter_setMetadata, List.map]
    · simp only [Value.attachments, Option.map, getMetadata_setMetadata]
    · simp only [LLVMHasMetadataStr, getMetadata_setMetadata, Option.isSome]

/-- Claim C9: `extractMDNode` returns the payload itself when it is a genuine
node, returns the node whose only operand is the payload when it is a wrapped
constant, and its assertion fails exactly when the payload is neither. -/
theorem extractMDNode_normalises (n : MDNode) (c : Nat) (mdv : MetadataAsValue) :
    extractMDNode ⟨Metadata.MDNode n⟩ = Outcome.ok n ∧
    extractMDNode ⟨Metadata.ConstantAsMetadata c⟩
        = Outcome.ok (MDNode.tuple [Metadata.ConstantAsMetadata c]) ∧
    (extractMDNode mdv = Outcome.assert_fail ↔
      (mdv.getMetadata.isaMDNode = false ∧ mdv.getMetadata.isaConstantAsMetadata = false)) ∧
    (mdv.getMetadata.isaMDNode = true ∨ mdv.getMetadata.isaConstantAsMetadata = true ↔
      ∃ r, extractMDNode mdv = Outcome.ok r) := by
  refine ⟨extractMDNode_node n, ?_, ?_, ?_⟩
  · simp [extractMDNode, pony_assert, Outcome.bind, Metadata.isaMDNode,
      Metadata.isaConstantAsMetadata, Metadata.dyn_cast_MDNode, MDNode.get]
  · obtain ⟨md⟩ := mdv
    cases md <;>
      simp [extractMDNode, pony_assert, Outcome.bind, Metadata.isaMDNode,
        Metadata.isaConstantAsMetadata, Metadata.dyn_cast_MDNode]
  · obtain ⟨md⟩ := mdv
    cases md <;>
      simp [extractMDNode, pony_assert, Outcome.bind, Metadata.isaMDNode,
        Metadata.isaConstantAsMetadata, Metadata.dyn_cast_MDNode]

/-! ## Intrinsic declarations -/

/-- Claim C8: for every module, `LLVMMemcpy` and `LLVMMemmove` request the
parameter types (i8 pointer, i8 pointer, integer of N bits), N being 32 when
`ilp32` is set and 64 when it is clear; the two requests have the same
parameter list and module and differ in the intrinsic, `memcpy` or `memmove`. -/
theorem memcpy_memmove_params (module : Module) (ilp32 : Bool) :
    (LLVMMemcpy module ilp32).tys
        = [LLVMType.Int8PtrTy module.getContext, LLVMType.Int8PtrTy module.getContext,
            LLVMType.IntNTy module.getContext (if ilp32 = true then 32 else 64)] ∧
    (LLVMMemcpy module true).tys
        = [LLVMType.Int8PtrTy module.getContext, LLVMType.Int8PtrTy module.getContext,
            LLVMType.IntNTy module.getContext 32] ∧
    (LLVMMemcpy module false).tys
        = [LLVMType.Int8PtrTy module.getContext, LLVMType.Int8PtrTy module.getContext,
            LLVMType.IntNTy module.getContext 64] ∧
    (LLVMMemmove module ilp32).tys = (LLVMMemcpy module ilp32).tys ∧
    (LLVMMemmove module ilp32).m = (LLVMMemcpy module ilp32).m ∧
    (LLVMMemcpy module ilp32).id = Intrinsic.memcpy ∧
    (LLVMMemmove module ilp32).id = Intrinsic.memmove := by
  cases ilp32 <;> simp [LLVMMemcpy, LLVMMemmove]

end Host
